import Mathlib

/-!
Verification of the two core pipelines of the deno-project-manager
repository: the release pipeline (commit classification and release
assembly, from `tools/git.ts`) and the deployment pipeline (content
hashing and manifest building, from `bin/deploy.ts`), together with the
version engine (`tools/versioning.ts`) and the commit timestamp
normalization of the commit schema.

Every definition is a shallow embedding of the corresponding source
function; effectful dependencies (the subprocess that retrieves the
first commit, the filesystem, the regular-expression engine used for
exclusion patterns) are passed in explicitly as data.
-/

/-- Decidable equality for `Except` values, used to evaluate classifier
results on concrete inputs. -/
instance {ε α : Type} [DecidableEq ε] [DecidableEq α] : DecidableEq (Except ε α) := fun a b =>
  match a, b with
  | Except.ok x, Except.ok y =>
    if h : x = y then isTrue (by rw [h]) else isFalse (fun hh => by cases hh; exact h rfl)
  | Except.error e, Except.error f =>
    if h : e = f then isTrue (by rw [h]) else isFalse (fun hh => by cases hh; exact h rfl)
  | Except.ok _, Except.error _ => isFalse (fun hh => by cases hh)
  | Except.error _, Except.ok _ => isFalse (fun hh => by cases hh)

namespace DPM

/-! ## Commit labels and the marker table -/

/-- The closed set of commit labels used by the changelog pipeline. -/
inductive CommitLabel
  | breakingChanges
  | added
  | security
  | fixed
  | removed
  | deprecated
  | changed
  | miscellaneous
  | release
deriving DecidableEq, Repr

/-- One group of the marker table: the marker codes mapped to one label. -/
structure EmojiGroup where
  emojis : List String
  label : CommitLabel
deriving DecidableEq, Repr

/-- Modelled from the spec: the fixed marker-code table (`EMOJI_MAP` in the
data module `git.data.ts`, which is not part of the sources at hand). The
spec describes it as a fixed table mapping each known marker code to one
commit label; the concrete codes listed here are the ones exercised by the
classifier tests of the repository (`_tests_/git.test.ts`). -/
def EMOJI_MAP : List EmojiGroup :=
  [ ⟨["boom"], .breakingChanges⟩,
    ⟨["sparkles", "tada", "construction_worker"], .added⟩,
    ⟨["lock"], .security⟩,
    ⟨["bug", "apple", "pencil2"], .fixed⟩,
    ⟨["fire", "heavy_minus_sign", "mute"], .removed⟩,
    ⟨["wastebasket"], .deprecated⟩,
    ⟨["art", "bento", "building_construction"], .changed⟩,
    ⟨["bookmark"], .release⟩ ]

/-- Modelled from the spec: the fallback group (`DEFAULT_EMOJI_GROUP` in the
missing data module `git.data.ts`); the spec fixes its label to
`Miscellaneous`. -/
def DEFAULT_EMOJI_GROUP : EmojiGroup := ⟨[], .miscellaneous⟩

/-! ## The commit classifier (`getCommitLabel`) -/

/-- A word character in the sense of the `\w` class of the marker
regular expression: ASCII letters, digits and underscore. -/
def isWordChar (c : Char) : Bool :=
  c.isAlphanum || c == '_'

/-- Try to match the marker pattern (colon, one or more word characters,
colon) at the start of the character list; on success return the whole
matched token, colons included. -/
def matchMarkerAt : List Char → Option (List Char)
  | ':' :: rest =>
    let run := rest.takeWhile isWordChar
    match run, rest.dropWhile isWordChar with
    | [], _ => none
    | _, ':' :: _ => some (':' :: (run ++ [':']))
    | _, _ => none
  | _ => none

/-- Leftmost match of the marker pattern in a character list; this is the
embedding of `subject.match(/:\w+:/)` together with the leftmost-match
rule of the regular-expression engine. -/
def findMarker : List Char → Option (List Char)
  | [] => none
  | c :: rest =>
    match matchMarkerAt (c :: rest) with
    | some m => some m
    | none => findMarker rest

/-- The lookup loop of `getCommitLabel`: scan the groups of the table in
order and return the label of the first group whose code list contains the
extracted code; fall back to the default group. -/
def lookupGroup : List EmojiGroup → String → CommitLabel
  | [], _ => DEFAULT_EMOJI_GROUP.label
  | g :: gs, e => if e ∈ g.emojis then g.label else lookupGroup gs e

/-- Embedding of `getCommitLabel` (tools/git.ts): extract the first
marker-shaped token of the subject, strip the colons, and look the code up
in the marker table. A subject without a marker makes the function throw,
embedded as `Except.error` with the thrown message. -/
def getCommitLabel (subject : String) : Except String CommitLabel :=
  match findMarker subject.data with
  | none => Except.error "No emoji found :("
  | some m => Except.ok (lookupGroup EMOJI_MAP (String.mk (m.filter (fun c => c ≠ ':'))))

/-! ## Commits and the release object -/

/-- The author field of a parsed commit. -/
structure Author where
  name : String
  email : String
deriving DecidableEq, Repr

/-- A parsed commit record (the output type of the commit schema). The
timestamp is the instant in milliseconds since the epoch. -/
structure Commit where
  hash : String
  id : String
  timestamp : Int
  author : Author
  subject : String
  ref : String
deriving DecidableEq, Repr

/-- Replace the first occurrence of `pat` in a character list by nothing;
this is the embedding of the single-replacement
`String.prototype.replace(pat, "")` with a string pattern. -/
def replaceFirst (pat : List Char) : List Char → List Char
  | [] => []
  | c :: rest =>
    if pat.isPrefixOf (c :: rest) then (c :: rest).drop pat.length
    else c :: replaceFirst pat rest

/-- Embedding of `extractVersionFromCommit`: delete the first occurrence of
the literal text `tag: v` from the ref of the commit. -/
def extractVersionFromCommit (c : Commit) : String :=
  String.mk (replaceFirst "tag: v".data c.ref.data)

/-- The changes record of a release object: an association list from label
to the bucketed commits, in the key order of the object literal of
`initReleaseObject`. -/
abbrev Changes := List (CommitLabel × List Commit)

/-- The release object assembled by the release pipeline. -/
structure ReleaseObject where
  owner : String
  name : String
  version : String
  tag : String
  previous : String
  previousTag : String
  changes : Changes
deriving DecidableEq, Repr

/-- The eight non-release labels, in the key order of the `changes` object
literal of `initReleaseObject`. -/
def allUnreleasedLabels : List CommitLabel :=
  [.breakingChanges, .added, .security, .fixed, .removed, .deprecated,
   .changed, .miscellaneous]

/-- Embedding of `initReleaseObject` at its only call site (the `previous`
parameter takes its default value, the empty string). -/
def initReleaseObject (version : String) : ReleaseObject :=
  { owner := ""
    name := ""
    version := version
    tag := "v" ++ version
    previous := ""
    previousTag := ""
    changes :=
      [ (.breakingChanges, []), (.added, []), (.security, []), (.fixed, []),
        (.removed, []), (.deprecated, []), (.changed, []), (.miscellaneous, []) ] }

/-- Embedding of `release.changes[label].commits.push(commit)`: append the
commit to the bucket stored under the label. An absent key is left alone,
matching that the source only ever pushes to the eight keys present since
initialization. -/
def pushChange (label : CommitLabel) (c : Commit) : Changes → Changes
  | [] => []
  | (l2, cs) :: rest =>
    (if l2 = label then (l2, cs ++ [c]) else (l2, cs)) :: pushChange label c rest

/-- The iteration of `getReleaseObject` over the commit list: classify each
commit; a release-labeled commit stops the loop and records the previous
version extracted from its ref, any other commit is appended to the bucket
of its label. A classification error propagates. -/
def bucketLoop (release : ReleaseObject) : List Commit → Except String ReleaseObject
  | [] => Except.ok release
  | c :: cs =>
    match getCommitLabel c.subject with
    | Except.error e => Except.error e
    | Except.ok label =>
      if label = .release then
        Except.ok { release with
          previous := extractVersionFromCommit c
          previousTag := "v" ++ extractVersionFromCommit c }
      else
        bucketLoop { release with changes := pushChange label c release.changes } cs

/-- Embedding of `getReleaseObject`. The effectful dependency
`_internals.retrieveFirstCommit` (a subprocess call) is passed in as the
`firstCommit` argument; it is consulted exactly when the loop left
`previous` empty, in which case both `previous` and `previousTag` are set
to the hash of that commit. -/
def getReleaseObject (firstCommit : Commit) (version : String)
    (commits : List Commit) : Except String ReleaseObject :=
  match bucketLoop (initReleaseObject version) commits with
  | Except.error e => Except.error e
  | Except.ok r =>
    if r.previous = "" then
      Except.ok { r with previous := firstCommit.hash, previousTag := firstCommit.hash }
    else
      Except.ok r

/-- The bucket stored under a label in a changes record (empty when the
label is absent); the embedding of the indexing `release.changes[label]`. -/
def changesFor (chs : Changes) (l : CommitLabel) : List Commit :=
  match chs with
  | [] => []
  | (l2, cs) :: rest => if l2 = l then cs else changesFor rest l

/-- Whether a classification succeeded. -/
def classifyOk : Except String CommitLabel → Bool
  | Except.ok _ => true
  | Except.error _ => false

/-! ## SHA-1

The deployment pipeline hashes file contents with the SHA-1 digest of the
platform crypto interface. The digest is embedded here directly from the
FIPS 180 algorithm, over byte lists represented as natural numbers below
256, with all word arithmetic taken modulo `2 ^ 32`. -/

/-- Truncate to a 32 bit word. -/
def w32 (n : Nat) : Nat := n % 4294967296

/-- Rotate a 32 bit word left by `k` bits. -/
def rotl (k x : Nat) : Nat := w32 ((x <<< k) ||| (x >>> (32 - k)))

/-- Pad a byte message per SHA-1: append the `0x80` byte, then zeros up to
56 bytes modulo 64, then the bit length as eight big-endian bytes. -/
def sha1Pad (msg : List Nat) : List Nat :=
  let bitLen := msg.length * 8
  let padZeros := (64 + 55 - (msg.length % 64)) % 64
  msg ++ [128] ++ List.replicate padZeros 0
      ++ (List.range 8).map (fun i => (bitLen >>> (8 * (7 - i))) % 256)

/-- Group a padded byte list into 32 bit big-endian words. -/
def toWords : List Nat → List Nat
  | b0 :: b1 :: b2 :: b3 :: rest =>
    (((b0 * 256 + b1) * 256 + b2) * 256 + b3) :: toWords rest
  | _ => []

/-- Extension step for the message schedule, keeping the words produced so
far in reverse order. -/
def sha1ExtendRev : Nat → List Nat → List Nat
  | 0, acc => acc
  | k + 1, acc =>
    sha1ExtendRev k
      (rotl 1 (acc.getD 2 0 ^^^ acc.getD 7 0 ^^^ acc.getD 13 0 ^^^ acc.getD 15 0) :: acc)

/-- The 80 word message schedule of one block. -/
def sha1Schedule (ws : List Nat) : List Nat :=
  (sha1ExtendRev 64 ws.reverse).reverse

/-- The round function of SHA-1. -/
def sha1F (i b c d : Nat) : Nat :=
  if i < 20 then (b &&& c) ||| ((b ^^^ 4294967295) &&& d)
  else if i < 40 then b ^^^ c ^^^ d
  else if i < 60 then (b &&& c) ||| (b &&& d) ||| (c &&& d)
  else b ^^^ c ^^^ d

/-- The round constants of SHA-1. -/
def sha1K (i : Nat) : Nat :=
  if i < 20 then 0x5A827999
  else if i < 40 then 0x6ED9EBA1
  else if i < 60 then 0x8F1BBCDC
  else 0xCA62C1D6

/-- The 80 compression rounds of one block. -/
def sha1Rounds : Nat → List Nat → Nat × Nat × Nat × Nat × Nat → Nat × Nat × Nat × Nat × Nat
  | _, [], st => st
  | i, wi :: ws, (a, b, c, d, e) =>
    sha1Rounds (i + 1) ws
      (w32 (rotl 5 a + sha1F i b c d + e + sha1K i + wi), a, rotl 30 b, c, d)

/-- Process one 64 byte block into the running hash state. -/
def sha1Block (hs : Nat × Nat × Nat × Nat × Nat) (block : List Nat) :
    Nat × Nat × Nat × Nat × Nat :=
  let (a, b, c, d, e) := sha1Rounds 0 (sha1Schedule (toWords block)) hs
  (w32 (hs.1 + a), w32 (hs.2.1 + b), w32 (hs.2.2.1 + c), w32 (hs.2.2.2.1 + d),
   w32 (hs.2.2.2.2 + e))

/-- Split a byte list into blocks of 64 bytes, keeping the bytes of the
block under construction in reverse order in the accumulator. -/
def toBlocksAux (acc : List Nat) : List Nat → List (List Nat)
  | [] => if acc = [] then [] else [acc.reverse]
  | b :: rest =>
    if acc.length = 63 then (acc.reverse ++ [b]) :: toBlocksAux [] rest
    else toBlocksAux (b :: acc) rest

/-- Split a byte list into blocks of 64 bytes. -/
def toBlocks (l : List Nat) : List (List Nat) :=
  toBlocksAux [] l

/-- The four big-endian bytes of a 32 bit word. -/
def be4 (n : Nat) : List Nat :=
  [(n >>> 24) % 256, (n >>> 16) % 256, (n >>> 8) % 256, n % 256]

/-- The SHA-1 digest of a byte message, as a list of 20 bytes. -/
def sha1 (msg : List Nat) : List Nat :=
  let (a, b, c, d, e) :=
    (toBlocks (sha1Pad msg)).foldl sha1Block
      (0x67452301, 0xEFCDAB89, 0x98BADCFE, 0x10325476, 0xC3D2E1F0)
  be4 a ++ be4 b ++ be4 c ++ be4 d ++ be4 e

/-- A hexadecimal digit character, lowercase. -/
def hexDigit (n : Nat) : Char :=
  if n < 10 then Char.ofNat (48 + n) else Char.ofNat (87 + n)

/-- Two lowercase hexadecimal digits of a byte; this is the embedding of
`b.toString(16).padStart(2, "0")`. -/
def byteToHex (b : Nat) : List Char :=
  [hexDigit (b / 16), hexDigit (b % 16)]

/-- Concatenate a list of byte lists. -/
def listJoin : List (List Nat) → List Nat
  | [] => []
  | l :: ls => l ++ listJoin ls

/-- The lowercase hexadecimal SHA-1 digest of a byte message. -/
def sha1Hex (msg : List Nat) : String :=
  String.mk (((sha1 msg).map byteToHex).flatten)

/-- The UTF-8 encoding of one character. -/
def utf8Bytes (c : Char) : List Nat :=
  let n := c.toNat
  if n < 128 then [n]
  else if n < 2048 then [192 ||| (n >>> 6), 128 ||| (n &&& 63)]
  else if n < 65536 then
    [224 ||| (n >>> 12), 128 ||| ((n >>> 6) &&& 63), 128 ||| (n &&& 63)]
  else
    [240 ||| (n >>> 18), 128 ||| ((n >>> 12) &&& 63), 128 ||| ((n >>> 6) &&& 63),
     128 ||| (n &&& 63)]

/-- The UTF-8 encoder: the embedding of `new TextEncoder().encode(s)`. -/
def textEncode (s : String) : List Nat :=
  listJoin (s.data.map utf8Bytes)

/-- Embedding of `calculateGitSha1` (bin/deploy.ts): the content hash of a
byte sequence is the hexadecimal SHA-1 digest of the text
`blob <decimal length>` followed by a NUL byte followed by the bytes. -/
def calculateGitSha1 (bytes : List Nat) : String :=
  let pfx := "blob " ++ Nat.repr bytes.length ++ String.mk [Char.ofNat 0]
  sha1Hex (textEncode pfx ++ bytes)

/-! ## The manifest builder (`createManifest`)

The filesystem visited by `createManifest` is modelled as a tree of
entries: a file carries its byte content, a directory carries its listing
of named entries in the order the directory read yields them. The
exclusion test `exclusionPattern.test(path)` is modelled as an abstract
boolean predicate on paths. -/

mutual
/-- A filesystem entry as seen by the manifest builder. -/
inductive FsEntry
  | file (content : List Nat)
  | dir (listing : FsListing)

/-- A directory listing: named entries in directory-read order. -/
inductive FsListing
  | nil
  | cons (name : String) (entry : FsEntry) (rest : FsListing)
end

/-- Embedding of the path join of the builder: joining the root marker with
a name yields the name, any other join inserts a slash. -/
def joinPath (dir name : String) : String :=
  if dir = "./" then name else dir ++ "/" ++ name

/-- Substring test on character lists: the embedding of
`String.prototype.includes`. -/
def hasSub (pat : List Char) : List Char → Bool
  | [] => pat.isEmpty
  | c :: rest => pat.isPrefixOf (c :: rest) || hasSub pat rest

/-- A manifest entry (the `ManifestEntry` union of bin/deploy.ts; the
symlink variant exists in the source type but is never produced by the
builder, which visits files and directories only). -/
inductive ManifestEntry
  | file (gitSha1 : String) (size : Nat)
  | directory (entries : List (String × ManifestEntry))

/-- Embedding of `Map.prototype.set` on the side table: an existing key
keeps its position and gets the new value, a new key is appended. -/
def mapSet (m : List (String × String)) (k v : String) : List (String × String) :=
  if (m.map Prod.fst).contains k then
    m.map (fun p => if p.1 = k then (p.1, v) else p)
  else m ++ [(k, v)]

mutual
/-- Embedding of the directory loop of `createManifest`: visit the listing
in order, skip entries whose joined path matches the exclusion pattern,
and thread the side table through the visits. The returned pair is the
entries record and the final side table. -/
def buildListing (exclude : String → Bool) (dir : String) :
    FsListing → List (String × String) →
    List (String × ManifestEntry) × List (String × String)
  | FsListing.nil, mapping => ([], mapping)
  | FsListing.cons name entry rest, mapping =>
    if exclude (joinPath dir name) then buildListing exclude dir rest mapping
    else
      match buildEntry exclude (joinPath dir name) name entry mapping with
      | some (me, mp1) =>
        let (m, mp2) := buildListing exclude dir rest mp1
        ((name, me) :: m, mp2)
      | none => buildListing exclude dir rest mapping

/-- Embedding of the per-entry body of `createManifest`: a file is hashed,
recorded and registered in the side table; a directory whose name contains
`.git` is skipped by the `continue` statement (modelled as `none`); any
other directory is recursed into. -/
def buildEntry (exclude : String → Bool) (path name : String) :
    FsEntry → List (String × String) →
    Option (ManifestEntry × List (String × String))
  | FsEntry.file content, mapping =>
    some (ManifestEntry.file (calculateGitSha1 content) content.length,
          mapSet mapping (calculateGitSha1 content) path)
  | FsEntry.dir sub, mapping =>
    if hasSub ".git".data name.data then none
    else
      let (subM, mp1) := buildListing exclude path sub mapping
      some (ManifestEntry.directory subM, mp1)
end

/-- Embedding of `createManifest` as called by the deploy action: the walk
starts at the root marker directory. -/
def createManifest (exclude : String → Bool) (root : FsListing)
    (mapping : List (String × String)) :
    List (String × ManifestEntry) × List (String × String) :=
  buildListing exclude "./" root mapping

/-- The listing with the entries whose joined path matches the exclusion
predicate removed; stated from the words of the spec (excluded entries are
skipped entirely and not recursed into) for comparison with the builder. -/
def dropExcluded (exclude : String → Bool) (dir : String) : FsListing → FsListing
  | FsListing.nil => FsListing.nil
  | FsListing.cons name entry rest =>
    if exclude (joinPath dir name) then dropExcluded exclude dir rest
    else FsListing.cons name entry (dropExcluded exclude dir rest)

mutual
/-- The hash and path of every file visit the builder performs on a
listing, in visit order; excluded entries and the subtrees of skipped
directories contribute nothing. -/
def visitedBlobsListing (exclude : String → Bool) (dir : String) :
    FsListing → List (String × String)
  | FsListing.nil => []
  | FsListing.cons name entry rest =>
    (if exclude (joinPath dir name) then []
     else visitedBlobsEntry exclude (joinPath dir name) name entry)
      ++ visitedBlobsListing exclude dir rest

/-- The file visits performed on a single entry. -/
def visitedBlobsEntry (exclude : String → Bool) (path name : String) :
    FsEntry → List (String × String)
  | FsEntry.file content => [(calculateGitSha1 content, path)]
  | FsEntry.dir sub =>
    if hasSub ".git".data name.data then []
    else visitedBlobsListing exclude path sub
end

/-- Lookup in an association list with string keys: the value of the first
pair carrying the key. -/
def assocLookup : List (String × String) → String → Option String
  | [], _ => none
  | (k2, v) :: rest, k => if k2 = k then some v else assocLookup rest k

/-- The value of the last pair with the given key, if any. -/
def findLast (l : List (String × String)) (k : String) : Option String :=
  match l with
  | [] => none
  | (k2, v) :: rest =>
    match findLast rest k with
    | some r => some r
    | none => if k2 = k then some v else none

/-! ## The version engine (`VersionObject`)

`VersionObject` wraps the `SemVer` record of the standard semver library
(version 0.207) and its `parse`, `format` and `increment` functions, which
follow the node-semver semantics. They are embedded here over a record of
the version triple plus prerelease and build identifier lists. -/

/-- A parsed semantic version. -/
structure SemVer where
  major : Nat
  minor : Nat
  patch : Nat
  prerelease : List String
  build : List String
deriving DecidableEq, Repr

/-- The three release types the project dispatches on. -/
inductive ReleaseType
  | patch
  | minor
  | major
deriving DecidableEq, Repr

/-- Embedding of the `increment` function of the semver library for the
three release types used by the project (node-semver semantics: a
prerelease version is first completed to its own triple before the next
increment applies; prerelease and build identifiers of the result are
empty since the call sites pass none). -/
def increment (v : SemVer) : ReleaseType → SemVer
  | ReleaseType.patch =>
    { major := v.major, minor := v.minor
      patch := if v.prerelease = [] then v.patch + 1 else v.patch
      prerelease := [], build := [] }
  | ReleaseType.minor =>
    { major := v.major
      minor := if v.patch ≠ 0 ∨ v.prerelease = [] then v.minor + 1 else v.minor
      patch := 0, prerelease := [], build := [] }
  | ReleaseType.major =>
    { major := if v.minor ≠ 0 ∨ v.patch ≠ 0 ∨ v.prerelease = [] then v.major + 1 else v.major
      minor := 0, patch := 0, prerelease := [], build := [] }

/-- Split a character list at every occurrence of a separator character. -/
def splitOnChar (sep : Char) : List Char → List (List Char)
  | [] => [[]]
  | c :: rest =>
    let r := splitOnChar sep rest
    if c = sep then [] :: r else (c :: r.headD []) :: r.tail

/-- The numeric value of a decimal digit list. -/
def digitsToNat (ds : List Char) : Nat :=
  ds.foldl (fun acc c => acc * 10 + (c.toNat - 48)) 0

/-- Parse a numeric version identifier: decimal digits, no leading zero. -/
def parseNumId (ds : List Char) : Option Nat :=
  if ds ≠ [] ∧ ds.all Char.isDigit ∧ (ds.length > 1 → ds.headD '0' ≠ '0') then
    some (digitsToNat ds)
  else none

/-- Parse the dotted core triple of a semantic version. -/
def parseCore (core : List Char) (pre bld : List String) : Option SemVer :=
  match splitOnChar '.' core with
  | [a, b, c] =>
    match parseNumId a, parseNumId b, parseNumId c with
    | some x, some y, some z =>
      some { major := x, minor := y, patch := z, prerelease := pre, build := bld }
    | _, _, _ => none
  | _ => none

/-- Embedding of the `parse` function of the semver library on the version
grammar the project uses: core triple, optional prerelease identifiers
after the first dash, optional build identifiers after a plus. -/
def parseSemVer (s : String) : Option SemVer :=
  match splitOnChar '+' s.data with
  | [rest] => parseMain rest []
  | [rest, b] => parseMain rest ((splitOnChar '.' b).map String.mk)
  | _ => none
where
  parseMain (rest : List Char) (bld : List String) : Option SemVer :=
    match splitOnChar '-' rest with
    | [core] => parseCore core [] bld
    | core :: pre =>
      parseCore core
        ((splitOnChar '.' (List.intercalate ['-'] pre)).map String.mk) bld
    | [] => none

/-- Render a semantic version back to its canonical string. -/
def formatSemVer (v : SemVer) : String :=
  Nat.repr v.major ++ "." ++ Nat.repr v.minor ++ "." ++ Nat.repr v.patch
    ++ (if v.prerelease = [] then "" else "-" ++ String.intercalate "." v.prerelease)
    ++ (if v.build = [] then "" else "+" ++ String.intercalate "." v.build)

/-- The `VersionObject` class: a version string, its tag and the parsed
semver record. -/
structure VersionObject where
  version : String
  tag : String
  semver : SemVer
deriving DecidableEq, Repr

/-- The constructor branch receiving a `SemVer` record: the version string
is formatted from the record and the tag prefixes a `v`. -/
def VersionObject.ofSemVer (sv : SemVer) : VersionObject :=
  { version := formatSemVer sv, tag := "v" ++ formatSemVer sv, semver := sv }

/-- The constructor branch receiving a string: the string is kept verbatim
as the version, parsed into the semver record, and the tag prefixes a `v`;
a string outside the version grammar makes the constructor throw, embedded
as `none`. -/
def VersionObject.ofString (s : String) : Option VersionObject :=
  (parseSemVer s).map (fun sv => { version := s, tag := "v" ++ s, semver := sv })

/-- Embedding of `getNextPatch`. -/
def VersionObject.getNextPatch (v : VersionObject) : VersionObject :=
  VersionObject.ofSemVer (increment v.semver ReleaseType.patch)

/-- Embedding of `getNextMinor`. -/
def VersionObject.getNextMinor (v : VersionObject) : VersionObject :=
  VersionObject.ofSemVer (increment v.semver ReleaseType.minor)

/-- Embedding of `getNextMajor`. -/
def VersionObject.getNextMajor (v : VersionObject) : VersionObject :=
  VersionObject.ofSemVer (increment v.semver ReleaseType.major)

/-! ## Timestamp normalization (`parseDate` and the commit schema)

The raw timestamp of a commit record arrives either as a JSON number or as
a JSON string. The schema pipes it through `parseDate` and then validates
the result with a date-instance check. -/

/-- A raw JSON timestamp value. -/
inductive RawTs
  | num (n : Int)
  | str (s : String)
deriving DecidableEq, Repr

/-- Character list stripped of surrounding whitespace. -/
def trimChars (cs : List Char) : List Char :=
  ((cs.dropWhile Char.isWhitespace).reverse.dropWhile Char.isWhitespace).reverse

/-- The integer value of a digit list, when all characters are digits. -/
def digitsVal (ds : List Char) : Option Int :=
  if ds ≠ [] ∧ ds.all Char.isDigit then some (Int.ofNat (digitsToNat ds)) else none

/-- The numeric conversion `Number(value)` on the values the schema can
receive: a number converts to itself; a string is trimmed and read as an
optionally signed decimal integer (the empty string converts to zero);
anything else is NaN, modelled as `none`. The decimal-integer fragment
covers every numeric string this pipeline produces (epoch seconds). -/
def jsNumber : RawTs → Option Int
  | RawTs.num n => some n
  | RawTs.str s =>
    match trimChars s.data with
    | [] => some 0
    | '-' :: ds => (digitsVal ds).map Int.neg
    | '+' :: ds => digitsVal ds
    | ds => digitsVal ds

/-- The value produced by the `parseDate` preprocessor: either a date
instant in milliseconds since the epoch, or the untouched raw value. -/
inductive PreOut
  | date (ms : Int)
  | raw (v : RawTs)
deriving DecidableEq, Repr

/-- Embedding of `parseDate`: when the numeric conversion of the raw value
is not NaN the value is read as epoch seconds and turned into the instant
a thousand times it; otherwise the raw value is returned unchanged. -/
def parseDate (v : RawTs) : PreOut :=
  match jsNumber v with
  | some n => PreOut.date (n * 1000)
  | none => PreOut.raw v

/-- The date-instance validation the schema applies after `parseDate`: a
date passes, any other value is rejected with an invalid-type error. -/
def zDateCheck : PreOut → Except String Int
  | PreOut.date ms => Except.ok ms
  | PreOut.raw _ => Except.error "Expected date, received string"

/-- The timestamp field of the commit schema: preprocessing followed by
the date validation. -/
def timestampField (v : RawTs) : Except String Int :=
  zDateCheck (parseDate v)

/-! ## Lemmas on the release assembler -/

/-- A commit that classifies successfully to a label other than the
release label. -/
def nonReleaseOk (c : Commit) : Prop :=
  classifyOk (getCommitLabel c.subject) = true ∧
    getCommitLabel c.subject ≠ Except.ok CommitLabel.release

instance : DecidablePred nonReleaseOk := fun c => by
  unfold nonReleaseOk
  infer_instance

theorem nonReleaseOk_iff (c : Commit) :
    nonReleaseOk c ↔
      ∃ l, getCommitLabel c.subject = Except.ok l ∧ l ≠ CommitLabel.release := by
  unfold nonReleaseOk classifyOk
  cases h : getCommitLabel c.subject <;> simp [h]

theorem pushChange_keys (l : CommitLabel) (c : Commit) (chs : Changes) :
    (pushChange l c chs).map Prod.fst = chs.map Prod.fst := by
  induction chs with
  | nil => rfl
  | cons p t ih =>
    obtain ⟨k, v⟩ := p
    by_cases h : k = l <;> simp [pushChange, h, ih]

theorem bucketLoop_keys :
    ∀ (cs : List Commit) (release : ReleaseObject) (r : ReleaseObject),
      bucketLoop release cs = Except.ok r →
      r.changes.map Prod.fst = release.changes.map Prod.fst := by
  intro cs
  induction cs with
  | nil =>
    intro release r h
    simp only [bucketLoop] at h
    cases h
    rfl
  | cons c cs ih =>
    intro release r h
    simp only [bucketLoop] at h
    cases hg : getCommitLabel c.subject with
    | error e => rw [hg] at h; cases h
    | ok label =>
      rw [hg] at h
      dsimp only at h
      by_cases hl : label = CommitLabel.release
      · rw [if_pos hl] at h
        cases h
        rfl
      · rw [if_neg hl] at h
        have := ih _ _ h
        rw [this]
        exact pushChange_keys label c release.changes

theorem changesFor_push_ne (l l2 : CommitLabel) (c : Commit) (chs : Changes)
    (h : l2 ≠ l) :
    changesFor (pushChange l c chs) l2 = changesFor chs l2 := by
  induction chs with
  | nil => rfl
  | cons p t ih =>
    obtain ⟨k, v⟩ := p
    simp only [pushChange]
    by_cases hk : k = l
    · rw [if_pos hk]
      simp only [changesFor]
      subst hk
      rw [if_neg (fun hkl => h hkl.symm), if_neg (fun hkl => h hkl.symm)]
      exact ih
    · rw [if_neg hk]
      simp only [changesFor]
      by_cases hk2 : k = l2
      · rw [if_pos hk2, if_pos hk2]
      · rw [if_neg hk2, if_neg hk2]
        exact ih

theorem changesFor_push_self (l : CommitLabel) (c : Commit) (chs : Changes)
    (h : l ∈ chs.map Prod.fst) :
    changesFor (pushChange l c chs) l = changesFor chs l ++ [c] := by
  induction chs with
  | nil => simp at h
  | cons p t ih =>
    obtain ⟨k, v⟩ := p
    simp only [pushChange]
    by_cases hk : k = l
    · rw [if_pos hk]
      simp only [changesFor]
      rw [if_pos hk, if_pos hk]
    · rw [if_neg hk]
      simp only [changesFor]
      rw [if_neg hk, if_neg hk]
      refine ih ?_
      simp only [List.map_cons, List.mem_cons] at h
      exact h.resolve_left (fun he => hk he.symm)

theorem mem_allUnreleasedLabels (l : CommitLabel) (h : l ≠ CommitLabel.release) :
    l ∈ allUnreleasedLabels := by
  cases l <;> revert h <;> decide

theorem changesFor_init (version : String) (l : CommitLabel) :
    changesFor (initReleaseObject version).changes l = [] := by
  cases l <;> rfl

theorem init_keys (version : String) :
    (initReleaseObject version).changes.map Prod.fst = allUnreleasedLabels := rfl

theorem bucketLoop_boundary :
    ∀ (pre : List Commit) (release : ReleaseObject) (b : Commit) (post : List Commit),
      (∀ c ∈ pre, nonReleaseOk c) →
      getCommitLabel b.subject = Except.ok CommitLabel.release →
      release.changes.map Prod.fst = allUnreleasedLabels →
      ∃ r, bucketLoop release (pre ++ b :: post) = Except.ok r ∧
        r.previous = extractVersionFromCommit b ∧
        r.previousTag = "v" ++ extractVersionFromCommit b ∧
        (∀ l, changesFor r.changes l =
          changesFor release.changes l
            ++ pre.filter (fun c => getCommitLabel c.subject = Except.ok l)) := by
  intro pre
  induction pre with
  | nil =>
    intro release b post _ hb _
    refine ⟨{ release with
                previous := extractVersionFromCommit b
                previousTag := "v" ++ extractVersionFromCommit b }, ?_, rfl, rfl, ?_⟩
    · simp [bucketLoop, hb]
    · intro l
      simp
  | cons c pre ih =>
    intro release b post hpre hb hkeys
    obtain ⟨lc, hlc, hlcne⟩ := (nonReleaseOk_iff c).mp (hpre c (List.mem_cons_self c pre))
    have hpre2 : ∀ x ∈ pre, nonReleaseOk x := fun x hx => hpre x (List.mem_cons_of_mem c hx)
    have hkeys2 : (pushChange lc c release.changes).map Prod.fst = allUnreleasedLabels := by
      rw [pushChange_keys]; exact hkeys
    obtain ⟨r, hr, hp, hpt, hch⟩ :=
      ih { release with changes := pushChange lc c release.changes } b post hpre2 hb hkeys2
    refine ⟨r, ?_, hp, hpt, ?_⟩
    · simpa only [List.cons_append, bucketLoop, hlc, if_neg hlcne] using hr
    · intro l
      rw [hch l]
      by_cases hl : l = lc
      · subst hl
        have hmem : l ∈ release.changes.map Prod.fst := by
          rw [hkeys]; exact mem_allUnreleasedLabels l hlcne
        simp only [changesFor_push_self l c release.changes hmem]
        rw [List.filter_cons_of_pos (by simp [hlc]), List.append_assoc]
        simp
      · rw [changesFor_push_ne lc l c release.changes hl,
            List.filter_cons_of_neg
              (by simp only [hlc, decide_eq_true_eq, Except.ok.injEq]
                  exact fun he => hl he.symm)]

theorem bucketLoop_all_nonrelease :
    ∀ (cs : List Commit) (release : ReleaseObject),
      (∀ c ∈ cs, nonReleaseOk c) →
      ∃ r, bucketLoop release cs = Except.ok r ∧
        r.previous = release.previous ∧ r.previousTag = release.previousTag := by
  intro cs
  induction cs with
  | nil => intro release _; exact ⟨release, rfl, rfl, rfl⟩
  | cons c cs ih =>
    intro release hcs
    obtain ⟨lc, hlc, hlcne⟩ := (nonReleaseOk_iff c).mp (hcs c (List.mem_cons_self c cs))
    obtain ⟨r, hr, hp, hpt⟩ :=
      ih { release with changes := pushChange lc c release.changes }
        (fun x hx => hcs x (List.mem_cons_of_mem c hx))
    exact ⟨r, by simpa only [bucketLoop, hlc, if_neg hlcne] using hr, hp, hpt⟩

/-! ## Concrete commits used to instantiate the theorems -/

/-- A concrete author record. -/
def testAuthor : Author := ⟨"Jane", "jane@example.com"⟩

/-- A concrete first commit of the repository, with the hash used by the
test fixtures of the repository. -/
def firstCommitC : Commit :=
  ⟨"4e8037a42326e75c9e68f8b3c39157f8c70a99e3", "4e8037a", 0, testAuthor,
   ":tada: Add initial files", ""⟩

/-- A concrete bug-fix commit. -/
def bugCommit : Commit := ⟨"hash-bug", "hb", 300, testAuthor, ":bug: Fix a bug", ""⟩

/-- A concrete feature commit. -/
def featCommit : Commit :=
  ⟨"hash-feat", "hf", 400, testAuthor, ":sparkles: Add feature", ""⟩

/-- A concrete release commit with a version tag ref. -/
def releaseCommit : Commit :=
  ⟨"hash-rel", "hr", 200, testAuthor, ":bookmark: Release v0.1.0", "tag: v0.1.0"⟩

/-- A concrete release commit whose ref is empty, so that stripping the
tag marker leaves the empty string. -/
def emptyRefRelease : Commit :=
  ⟨"hash-rel2", "hr2", 100, testAuthor, ":bookmark: Release", ""⟩

/-- A concrete commit older than the release boundary. -/
def oldCommit : Commit := ⟨"hash-old", "ho", 50, testAuthor, ":bug: Old fix", ""⟩

/-- The release object produced for an empty-ref release boundary over the
concrete commits above. -/
def c1r : ReleaseObject :=
  { initReleaseObject "1.0.0" with
      previous := "4e8037a42326e75c9e68f8b3c39157f8c70a99e3"
      previousTag := "4e8037a42326e75c9e68f8b3c39157f8c70a99e3" }

/-- The release object produced for a single bug-fix commit over the
concrete commits above. -/
def c2r : ReleaseObject :=
  { initReleaseObject "1.0.0" with
      previous := "4e8037a42326e75c9e68f8b3c39157f8c70a99e3"
      previousTag := "4e8037a42326e75c9e68f8b3c39157f8c70a99e3"
      changes := pushChange CommitLabel.fixed bugCommit (initReleaseObject "1.0.0").changes }

/-! ## Claim theorems for the release assembler -/

/-- Claim C2: for every target version and commit list, the changes record
of the assembled release object has exactly the eight non-release labels
as keys, each initialized to an empty bucket before bucketing, and
assembly never adds or removes a key. -/
theorem assemble_changes_exactly_eight_keys (version : String) (firstCommit : Commit)
    (commits : List Commit) (r : ReleaseObject)
    (h : getReleaseObject firstCommit version commits = Except.ok r) :
    (initReleaseObject version).changes.map Prod.fst = allUnreleasedLabels ∧
    (∀ l, changesFor (initReleaseObject version).changes l = []) ∧
    r.changes.map Prod.fst = allUnreleasedLabels := by
  refine ⟨init_keys version, changesFor_init version, ?_⟩
  unfold getReleaseObject at h
  cases hb : bucketLoop (initReleaseObject version) commits with
  | error e => rw [hb] at h; cases h
  | ok r2 =>
    rw [hb] at h
    dsimp only at h
    have hk := (bucketLoop_keys commits _ _ hb).trans (init_keys version)
    by_cases hp : r2.previous = ""
    · rw [if_pos hp] at h
      cases h
      exact hk
    · rw [if_neg hp] at h
      cases h
      exact hk

/-- Witness for claim C2 at a concrete input. -/
theorem assemble_changes_exactly_eight_keys_witness :
    (initReleaseObject "1.0.0").changes.map Prod.fst = allUnreleasedLabels ∧
    (∀ l, changesFor (initReleaseObject "1.0.0").changes l = []) ∧
    c2r.changes.map Prod.fst = allUnreleasedLabels :=
  assemble_changes_exactly_eight_keys "1.0.0" firstCommitC [bugCommit] c2r (by decide)

/-- Claim C4: when no commit of the list classifies to the release label,
the assembled release object takes both its previous version and its
previous tag from the hash of the first commit returned by the
first-commit retrieval dependency. -/
theorem assemble_no_release_fallback (firstCommit : Commit) (version : String)
    (commits : List Commit) (h : ∀ c ∈ commits, nonReleaseOk c) :
    ∃ r, getReleaseObject firstCommit version commits = Except.ok r ∧
      r.previous = firstCommit.hash ∧ r.previousTag = firstCommit.hash := by
  obtain ⟨r2, hr, hp, hpt⟩ := bucketLoop_all_nonrelease commits (initReleaseObject version) h
  refine ⟨{ r2 with previous := firstCommit.hash, previousTag := firstCommit.hash },
          ?_, rfl, rfl⟩
  unfold getReleaseObject
  rw [hr]
  dsimp only
  rw [if_pos (show r2.previous = "" from hp)]

/-- Witness for claim C4 at a concrete input. -/
theorem assemble_no_release_fallback_witness :
    ∃ r, getReleaseObject firstCommitC "1.0.0" [bugCommit, featCommit] = Except.ok r ∧
      r.previous = firstCommitC.hash ∧ r.previousTag = firstCommitC.hash :=
  assemble_no_release_fallback firstCommitC "1.0.0" [bugCommit, featCommit] (by decide)

/-- Counterexample to claim C1 as stated: a release boundary whose ref
strips to the empty string does stop the bucketing, but the assembled
object does not keep the stripped ref as its previous version, nor the
tag built from it; the first-commit fallback overwrites both. -/
theorem assemble_release_boundary_counterexample :
    getReleaseObject firstCommitC "1.0.0" [emptyRefRelease] = Except.ok c1r ∧
    c1r.previous ≠ extractVersionFromCommit emptyRefRelease ∧
    c1r.previousTag ≠ "v" ++ extractVersionFromCommit emptyRefRelease := by
  refine ⟨by decide, by decide, by decide⟩

/-- Claim C1 (amended): when the stripped ref of the release boundary is
not empty, assembly stops at the first release-classified commit, takes
the previous version from the stripped ref and the previous tag as the
stripped ref prefixed by a v, and every bucket holds exactly the commits
visited before the boundary, so neither the boundary nor any older commit
is bucketed. -/
theorem assemble_release_boundary (firstCommit : Commit) (version : String)
    (pre : List Commit) (b : Commit) (post : List Commit)
    (hpre : ∀ c ∈ pre, nonReleaseOk c)
    (hb : getCommitLabel b.subject = Except.ok CommitLabel.release)
    (hne : extractVersionFromCommit b ≠ "") :
    ∃ r, getReleaseObject firstCommit version (pre ++ b :: post) = Except.ok r ∧
      r.previous = extractVersionFromCommit b ∧
      r.previousTag = "v" ++ extractVersionFromCommit b ∧
      (∀ l, changesFor r.changes l =
        pre.filter (fun c => getCommitLabel c.subject = Except.ok l)) := by
  obtain ⟨r, hr, hp, hpt, hch⟩ :=
    bucketLoop_boundary pre (initReleaseObject version) b post hpre hb (init_keys version)
  refine ⟨r, ?_, hp, hpt,
    fun l => by rw [hch l, changesFor_init, List.nil_append]⟩
  unfold getReleaseObject
  rw [hr]
  dsimp only
  rw [if_neg (by rw [hp]; exact hne)]

/-- Witness for the amended claim C1 at a concrete input. -/
theorem assemble_release_boundary_witness :
    ∃ r, getReleaseObject firstCommitC "1.1.0" ([bugCommit] ++ releaseCommit :: [oldCommit])
        = Except.ok r ∧
      r.previous = extractVersionFromCommit releaseCommit ∧
      r.previousTag = "v" ++ extractVersionFromCommit releaseCommit ∧
      (∀ l, changesFor r.changes l =
        [bugCommit].filter (fun c => getCommitLabel c.subject = Except.ok l)) :=
  assemble_release_boundary firstCommitC "1.1.0" [bugCommit] releaseCommit [oldCommit]
    (by decide) (by decide) (by decide)

/-- Claim C10: when the ref of the first release-classified commit strips
to the empty string, assembly still stops bucketing at that commit, but
the first-commit fallback then runs anyway: previous and previousTag both
end up as the hash of the first commit. -/
theorem assemble_release_boundary_empty_version (firstCommit : Commit) (version : String)
    (pre : List Commit) (b : Commit) (post : List Commit)
    (hpre : ∀ c ∈ pre, nonReleaseOk c)
    (hb : getCommitLabel b.subject = Except.ok CommitLabel.release)
    (hempty : extractVersionFromCommit b = "") :
    ∃ r, getReleaseObject firstCommit version (pre ++ b :: post) = Except.ok r ∧
      r.previous = firstCommit.hash ∧
      r.previousTag = firstCommit.hash ∧
      (∀ l, changesFor r.changes l =
        pre.filter (fun c => getCommitLabel c.subject = Except.ok l)) := by
  obtain ⟨r, hr, hp, hpt, hch⟩ :=
    bucketLoop_boundary pre (initReleaseObject version) b post hpre hb (init_keys version)
  refine ⟨{ r with previous := firstCommit.hash, previousTag := firstCommit.hash },
          ?_, rfl, rfl,
          fun l => by
            show changesFor r.changes l = _
            rw [hch l, changesFor_init, List.nil_append]⟩
  unfold getReleaseObject
  rw [hr]
  dsimp only
  rw [if_pos (by rw [hp, hempty])]

/-- Witness for claim C10 at a concrete input. -/
theorem assemble_release_boundary_empty_version_witness :
    ∃ r, getReleaseObject firstCommitC "1.1.0"
          ([bugCommit] ++ emptyRefRelease :: [oldCommit]) = Except.ok r ∧
      r.previous = firstCommitC.hash ∧
      r.previousTag = firstCommitC.hash ∧
      (∀ l, changesFor r.changes l =
        [bugCommit].filter (fun c => getCommitLabel c.subject = Except.ok l)) :=
  assemble_release_boundary_empty_version firstCommitC "1.1.0" [bugCommit]
    emptyRefRelease [oldCommit] (by decide) (by decide) (by decide)

/-! ## Claim C5: the classifier -/

theorem lookupGroup_found :
    ∀ (gs : List EmojiGroup) (e : String),
      (∃ g ∈ gs, e ∈ g.emojis) →
      ∃ g2 ∈ gs, e ∈ g2.emojis ∧ lookupGroup gs e = g2.label := by
  intro gs
  induction gs with
  | nil => intro e h; simp at h
  | cons g gs ih =>
    intro e h
    by_cases he : e ∈ g.emojis
    · exact ⟨g, List.mem_cons_self g gs, he, by simp [lookupGroup, he]⟩
    · obtain ⟨g0, hg0, hm0⟩ := h
      have hg0t : g0 ∈ gs := by
        cases List.mem_cons.mp hg0 with
        | inl heq => exact absurd (heq ▸ hm0) he
        | inr ht => exact ht
      obtain ⟨g2, hg2, hm2, hl⟩ := ih e ⟨g0, hg0t, hm0⟩
      exact ⟨g2, List.mem_cons_of_mem g hg2, hm2, by simp [lookupGroup, he, hl]⟩

theorem lookupGroup_not_found :
    ∀ (gs : List EmojiGroup) (e : String),
      (∀ g ∈ gs, e ∉ g.emojis) →
      lookupGroup gs e = DEFAULT_EMOJI_GROUP.label := by
  intro gs
  induction gs with
  | nil => intro e _; rfl
  | cons g gs ih =>
    intro e h
    have hg : e ∉ g.emojis := h g (List.mem_cons_self g gs)
    simp only [lookupGroup, if_neg hg]
    exact ih e (fun g2 hg2 => h g2 (List.mem_cons_of_mem g hg2))

/-- Claim C5: classification extracts the first marker-shaped token of the
subject; without such a token it throws the no-marker error and never
returns a label; with one, a code present in the marker table yields the
label of a table group containing it, and a code absent from every group
yields the miscellaneous label rather than failing. -/
theorem classify_marker_extraction (s : String) :
    (findMarker s.data = none → getCommitLabel s = Except.error "No emoji found :(") ∧
    (∀ m, findMarker s.data = some m →
      ((∃ g ∈ EMOJI_MAP, String.mk (m.filter (fun c => c ≠ ':')) ∈ g.emojis) →
        ∃ g2 ∈ EMOJI_MAP, String.mk (m.filter (fun c => c ≠ ':')) ∈ g2.emojis ∧
          getCommitLabel s = Except.ok g2.label) ∧
      ((∀ g ∈ EMOJI_MAP, String.mk (m.filter (fun c => c ≠ ':')) ∉ g.emojis) →
        getCommitLabel s = Except.ok CommitLabel.miscellaneous)) := by
  constructor
  · intro h
    unfold getCommitLabel
    rw [h]
  · intro m hm
    constructor
    · intro hex
      obtain ⟨g2, hg2, hm2, hl⟩ := lookupGroup_found EMOJI_MAP _ hex
      refine ⟨g2, hg2, hm2, ?_⟩
      unfold getCommitLabel
      rw [hm]
      dsimp only
      rw [hl]
    · intro hall
      unfold getCommitLabel
      rw [hm]
      dsimp only
      rw [lookupGroup_not_found EMOJI_MAP _ hall]
      rfl

/-- Witness for claim C5 at concrete subjects. -/
theorem classify_marker_extraction_witness :
    getCommitLabel "I have no emoji" = Except.error "No emoji found :(" ∧
    getCommitLabel ":smiling_face_with_hearts: Message" = Except.ok CommitLabel.miscellaneous ∧
    ∃ g2 ∈ EMOJI_MAP,
      String.mk (List.filter (fun c => c ≠ ':') ":bug:".data) ∈ g2.emojis ∧
      getCommitLabel ":bug: Fix a bug" = Except.ok g2.label :=
  ⟨(classify_marker_extraction "I have no emoji").1 (by decide),
   ((classify_marker_extraction ":smiling_face_with_hearts: Message").2
      ":smiling_face_with_hearts:".data (by decide)).2 (by decide),
   ((classify_marker_extraction ":bug: Fix a bug").2 ":bug:".data (by decide)).1
      (by decide)⟩

/-! ## Claim C3: the content hash -/

theorem listJoin_append (a b : List (List Nat)) :
    listJoin (a ++ b) = listJoin a ++ listJoin b := by
  induction a with
  | nil => rfl
  | cons l ls ih => simp [listJoin, ih, List.append_assoc]

theorem string_data_append (s t : String) : (s ++ t).data = s.data ++ t.data := by
  cases s
  cases t
  rfl

theorem textEncode_append (s t : String) :
    textEncode (s ++ t) = textEncode s ++ textEncode t := by
  unfold textEncode
  rw [string_data_append, List.map_append, listJoin_append]

set_option maxRecDepth 100000 in
/-- Claim C3: the content hash of a byte sequence is the SHA-1 digest of
the text `blob `, the decimal byte length, a NUL byte and the bytes, in
that order; the hash is deterministic, and the hash of the empty sequence
is the digest of `blob 0` followed by NUL, namely the well-known empty
blob identity. -/
theorem content_hash_is_git_blob_sha1 :
    (∀ bytes : List Nat,
      calculateGitSha1 bytes =
        sha1Hex (textEncode "blob " ++ textEncode (Nat.repr bytes.length)
                   ++ [0] ++ bytes)) ∧
    (∀ bytes : List Nat, calculateGitSha1 bytes = calculateGitSha1 bytes) ∧
    calculateGitSha1 [] = sha1Hex (textEncode ("blob 0" ++ String.mk [Char.ofNat 0])) ∧
    calculateGitSha1 [] = "e69de29bb2d1d6434b8b29ae775ad8c2e48c5391" := by
  have h0 : textEncode (String.mk [Char.ofNat 0]) = [0] := by decide
  refine ⟨?_, fun _ => rfl, by decide, by decide⟩
  intro bytes
  show sha1Hex (textEncode ("blob " ++ Nat.repr bytes.length ++ String.mk [Char.ofNat 0])
        ++ bytes) = _
  rw [textEncode_append, textEncode_append, h0]

/-! ## Claim C6: exclusion filtering of the manifest builder -/

theorem buildListing_dropExcluded :
    ∀ (l : FsListing) (exclude : String → Bool) (dir : String)
      (mapping : List (String × String)),
      buildListing exclude dir l mapping =
        buildListing exclude dir (dropExcluded exclude dir l) mapping
  | FsListing.nil, _, _, _ => rfl
  | FsListing.cons name e rest, exclude, dir, mapping => by
    simp only [dropExcluded]
    by_cases h : exclude (joinPath dir name)
    · rw [if_pos h]
      simp only [buildListing, if_pos h]
      exact buildListing_dropExcluded rest exclude dir mapping
    · rw [if_neg h]
      simp only [buildListing, if_neg h]
      cases hbe : buildEntry exclude (joinPath dir name) name e mapping with
      | none => exact buildListing_dropExcluded rest exclude dir mapping
      | some pr =>
        obtain ⟨me, mp1⟩ := pr
        dsimp only
        rw [buildListing_dropExcluded rest exclude dir mp1]

/-- Claim C6: an entry whose joined path matches the exclusion pattern
contributes nothing to the manifest build: the build of any listing equals
the build of the listing with every matching entry removed, so an excluded
entry gets no manifest entry, an excluded directory is not recursed into,
and none of its descendants reaches the entries record or the side
table. -/
theorem manifest_excluded_entries_contribute_nothing (exclude : String → Bool)
    (root : FsListing) (dir : String) (l : FsListing)
    (mapping : List (String × String)) :
    createManifest exclude root mapping =
      createManifest exclude (dropExcluded exclude "./" root) mapping ∧
    buildListing exclude dir l mapping =
      buildListing exclude dir (dropExcluded exclude dir l) mapping :=
  ⟨buildListing_dropExcluded root exclude "./" mapping,
   buildListing_dropExcluded l exclude dir mapping⟩

/-! ## Claim C9: the side table -/

theorem assocLookup_not_mem :
    ∀ (m : List (String × String)) (k : String),
      k ∉ m.map Prod.fst → assocLookup m k = none := by
  intro m
  induction m with
  | nil => intro k _; rfl
  | cons p t ih =>
    intro k h
    obtain ⟨a, b⟩ := p
    simp only [List.map_cons, List.mem_cons, not_or] at h
    have ha : ¬a = k := fun he => h.1 he.symm
    simp only [assocLookup]
    rw [if_neg ha]
    exact ih k h.2

theorem assocLookup_isSome_of_mem :
    ∀ (m : List (String × String)) (k : String),
      k ∈ m.map Prod.fst → (assocLookup m k).isSome = true := by
  intro m
  induction m with
  | nil => intro k h; simp at h
  | cons p t ih =>
    intro k h
    obtain ⟨a, b⟩ := p
    simp only [List.map_cons, List.mem_cons] at h
    by_cases ha : a = k
    · simp [assocLookup, ha]
    · simp only [assocLookup]
      rw [if_neg ha]
      exact ih k (h.resolve_left (fun he => ha he.symm))

theorem assocLookup_overwrite (k v k2 : String) :
    ∀ (m : List (String × String)),
      assocLookup (m.map (fun p => if p.1 = k then (p.1, v) else p)) k2 =
        if k2 = k then (assocLookup m k2).map (fun _ => v) else assocLookup m k2 := by
  intro m
  induction m with
  | nil => by_cases h : k2 = k <;> simp [h, assocLookup]
  | cons p t ih =>
    obtain ⟨a, b⟩ := p
    simp only [List.map_cons]
    by_cases ha : a = k
    · rw [if_pos ha]
      by_cases h2 : a = k2
      · subst h2
        subst ha
        simp [assocLookup]
      · subst ha
        simp [assocLookup, h2, show ¬k2 = a from fun he => h2 he.symm, ih]
    · rw [if_neg ha]
      by_cases h2 : a = k2
      · subst h2
        simp [assocLookup, show ¬a = k from ha]
      · simp [assocLookup, ha, h2, ih]

theorem assocLookup_append_single (k v k2 : String) :
    ∀ (m : List (String × String)),
      assocLookup (m ++ [(k, v)]) k2 =
        match assocLookup m k2 with
        | some r => some r
        | none => if k = k2 then some v else none := by
  intro m
  induction m with
  | nil => by_cases h : k = k2 <;> simp [assocLookup, h]
  | cons p t ih =>
    obtain ⟨a, b⟩ := p
    by_cases h2 : a = k2
    · simp [assocLookup, List.cons_append, h2]
    · simp only [assocLookup, List.cons_append, if_neg h2]
      exact ih

theorem assocLookup_mapSet (m : List (String × String)) (k v k2 : String) :
    assocLookup (mapSet m k v) k2 = if k2 = k then some v else assocLookup m k2 := by
  unfold mapSet
  by_cases hc : k ∈ m.map Prod.fst
  · rw [if_pos (by simpa using hc), assocLookup_overwrite k v k2 m]
    by_cases h : k2 = k
    · subst h
      rw [if_pos rfl, if_pos rfl]
      have hs := assocLookup_isSome_of_mem m k2 hc
      cases hf : assocLookup m k2 with
      | none => rw [hf] at hs; simp at hs
      | some r => simp
    · rw [if_neg h, if_neg h]
  · rw [if_neg (by simpa using hc), assocLookup_append_single k v k2 m]
    by_cases h : k2 = k
    · subst h
      rw [if_pos rfl, assocLookup_not_mem m k2 hc]
      simp
    · rw [if_neg h]
      cases assocLookup m k2 with
      | none => simp [show ¬k = k2 from fun he => h he.symm]
      | some r => simp

theorem assocLookup_foldl_mapSet :
    ∀ (l : List (String × String)) (mapping : List (String × String)) (k : String),
      assocLookup (l.foldl (fun m p => mapSet m p.1 p.2) mapping) k =
        match findLast l k with
        | some r => some r
        | none => assocLookup mapping k := by
  intro l
  induction l with
  | nil => intro mapping k; rfl
  | cons p t ih =>
    intro mapping k
    obtain ⟨k2, v⟩ := p
    simp only [List.foldl_cons, findLast]
    rw [ih (mapSet mapping k2 v) k]
    cases hf : findLast t k with
    | some r => rfl
    | none =>
      rw [assocLookup_mapSet mapping k2 v k]
      by_cases h : k2 = k
      · rw [if_pos h, if_pos (h.symm)]
      · rw [if_neg h, if_neg (fun he => h he.symm)]

mutual
theorem buildListing_snd :
    ∀ (l : FsListing) (exclude : String → Bool) (dir : String)
      (mapping : List (String × String)),
      (buildListing exclude dir l mapping).2 =
        (visitedBlobsListing exclude dir l).foldl (fun m p => mapSet m p.1 p.2) mapping
  | FsListing.nil, _, _, _ => rfl
  | FsListing.cons name e rest, exclude, dir, mapping => by
    simp only [buildListing, visitedBlobsListing]
    by_cases h : exclude (joinPath dir name)
    · rw [if_pos h, if_pos h, List.nil_append]
      exact buildListing_snd rest exclude dir mapping
    · rw [if_neg h, if_neg h, List.foldl_append]
      have he := buildEntry_snd e exclude (joinPath dir name) name mapping
      cases hbe : buildEntry exclude (joinPath dir name) name e mapping with
      | none =>
        rw [hbe] at he
        dsimp only at he
        rw [← he]
        exact buildListing_snd rest exclude dir mapping
      | some pr =>
        obtain ⟨me, mp1⟩ := pr
        rw [hbe] at he
        dsimp only at he
        dsimp only
        rw [← he]
        exact buildListing_snd rest exclude dir mp1

theorem buildEntry_snd :
    ∀ (e : FsEntry) (exclude : String → Bool) (path name : String)
      (mapping : List (String × String)),
      (match buildEntry exclude path name e mapping with
        | some pr => pr.2
        | none => mapping) =
        (visitedBlobsEntry exclude path name e).foldl (fun m p => mapSet m p.1 p.2) mapping
  | FsEntry.file content, exclude, path, name, mapping => rfl
  | FsEntry.dir sub, exclude, path, name, mapping => by
    simp only [buildEntry, visitedBlobsEntry]
    by_cases h : hasSub ".git".data name.data = true
    · rw [if_pos h, if_pos h]
      rfl
    · rw [if_neg h, if_neg h]
      cases hbl : buildListing exclude path sub mapping with
      | mk m2 mp2 =>
        have hrec := buildListing_snd sub exclude path mapping
        rw [hbl] at hrec
        exact hrec
end

/-- Claim C9 (amended): within one build the side table keeps, for every
hash, the path of the most recent file visit that produced that hash (a
later visit with the same content replaces the stored path), and a key
never disappears: a hash never visited keeps whatever the table held
before the build. -/
theorem side_table_last_write_wins (exclude : String → Bool) (root : FsListing)
    (mapping : List (String × String)) (h : String) :
    assocLookup (createManifest exclude root mapping).2 h =
      match findLast (visitedBlobsListing exclude "./" root) h with
      | some p => some p
      | none => assocLookup mapping h := by
  unfold createManifest
  rw [buildListing_snd root exclude "./" mapping,
      assocLookup_foldl_mapSet (visitedBlobsListing exclude "./" root) mapping h]

/-- A listing with two files of identical content. -/
def twoFilesSameContent : FsListing :=
  FsListing.cons "a.txt" (FsEntry.file [49])
    (FsListing.cons "b.txt" (FsEntry.file [49]) FsListing.nil)

set_option maxRecDepth 400000 in
/-- Counterexample to claim C9 as stated: with two files of identical
content the hash key is registered at the first visit with the first path,
and the second visit changes the stored path, so the final table holds the
path of the second file, not the first. -/
theorem side_table_write_once_counterexample :
    assocLookup ((createManifest (fun _ => false) twoFilesSameContent []).2)
        (calculateGitSha1 [49]) = some "b.txt" ∧
    ("b.txt" : String) ≠ "a.txt" ∧
    assocLookup ((createManifest (fun _ => false)
        (FsListing.cons "a.txt" (FsEntry.file [49]) FsListing.nil) []).2)
        (calculateGitSha1 [49]) = some "a.txt" :=
  ⟨by decide, by decide, by decide⟩

/-! ## Claim C7: version increments -/

/-- The version object for the plain version 1.2.3. -/
def v123 : VersionObject :=
  { version := "1.2.3", tag := "v1.2.3",
    semver := { major := 1, minor := 2, patch := 3, prerelease := [], build := [] } }

/-- Counterexample to claim C7 as stated: on a version carrying a
prerelease identifier, the patch increment completes the prerelease to its
own triple instead of bumping the patch component, so the triple of the
result is not the triple with the patch raised by one. -/
theorem version_increment_counterexample :
    (VersionObject.ofSemVer
        { major := 1, minor := 2, patch := 3, prerelease := ["alpha"], build := [] }
      ).getNextPatch.semver.patch ≠
      (VersionObject.ofSemVer
        { major := 1, minor := 2, patch := 3, prerelease := ["alpha"], build := [] }
      ).semver.patch + 1 := by decide

/-- Claim C7 (amended): on every version without prerelease identifiers,
the three increment operations return fresh version objects with the patch
increment raising the patch component, the minor increment raising the
minor component and clearing the patch, and the major increment raising
the major component and clearing minor and patch; each result tags itself
with a v before its version string, and the version constructed from the
string 1.2.3 increments to 1.2.4, 1.3.0 and 2.0.0. -/
theorem version_increment_rules (v : VersionObject) (h : v.semver.prerelease = []) :
    (v.getNextPatch.semver.major = v.semver.major ∧
     v.getNextPatch.semver.minor = v.semver.minor ∧
     v.getNextPatch.semver.patch = v.semver.patch + 1) ∧
    (v.getNextMinor.semver.major = v.semver.major ∧
     v.getNextMinor.semver.minor = v.semver.minor + 1 ∧
     v.getNextMinor.semver.patch = 0) ∧
    (v.getNextMajor.semver.major = v.semver.major + 1 ∧
     v.getNextMajor.semver.minor = 0 ∧
     v.getNextMajor.semver.patch = 0) ∧
    (v.getNextPatch.tag = "v" ++ v.getNextPatch.version ∧
     v.getNextMinor.tag = "v" ++ v.getNextMinor.version ∧
     v.getNextMajor.tag = "v" ++ v.getNextMajor.version) ∧
    (∀ vo, VersionObject.ofString "1.2.3" = some vo →
      vo.getNextPatch.version = "1.2.4" ∧ vo.getNextPatch.tag = "v1.2.4" ∧
      vo.getNextMinor.version = "1.3.0" ∧ vo.getNextMinor.tag = "v1.3.0" ∧
      vo.getNextMajor.version = "2.0.0" ∧ vo.getNextMajor.tag = "v2.0.0") := by
  refine ⟨⟨?_, ?_, ?_⟩, ⟨?_, ?_, ?_⟩, ⟨?_, ?_, ?_⟩, ⟨rfl, rfl, rfl⟩, ?_⟩
  · rfl
  · rfl
  · simp [VersionObject.getNextPatch, VersionObject.ofSemVer, increment, h]
  · rfl
  · simp [VersionObject.getNextMinor, VersionObject.ofSemVer, increment, h]
  · rfl
  · simp [VersionObject.getNextMajor, VersionObject.ofSemVer, increment, h]
  · rfl
  · rfl
  · intro vo hvo
    have hp : VersionObject.ofString "1.2.3" = some v123 := by decide
    rw [hp] at hvo
    cases hvo
    exact ⟨by decide, by decide, by decide, by decide, by decide, by decide⟩

/-- Witness for the amended claim C7 at the concrete version 1.2.3. -/
theorem version_increment_rules_witness :
    (v123.getNextPatch.semver.major = v123.semver.major ∧
     v123.getNextPatch.semver.minor = v123.semver.minor ∧
     v123.getNextPatch.semver.patch = v123.semver.patch + 1) ∧
    (v123.getNextMinor.semver.major = v123.semver.major ∧
     v123.getNextMinor.semver.minor = v123.semver.minor + 1 ∧
     v123.getNextMinor.semver.patch = 0) ∧
    (v123.getNextMajor.semver.major = v123.semver.major + 1 ∧
     v123.getNextMajor.semver.minor = 0 ∧
     v123.getNextMajor.semver.patch = 0) ∧
    (v123.getNextPatch.tag = "v" ++ v123.getNextPatch.version ∧
     v123.getNextMinor.tag = "v" ++ v123.getNextMinor.version ∧
     v123.getNextMajor.tag = "v" ++ v123.getNextMajor.version) ∧
    (∀ vo, VersionObject.ofString "1.2.3" = some vo →
      vo.getNextPatch.version = "1.2.4" ∧ vo.getNextPatch.tag = "v1.2.4" ∧
      vo.getNextMinor.version = "1.3.0" ∧ vo.getNextMinor.tag = "v1.3.0" ∧
      vo.getNextMajor.version = "2.0.0" ∧ vo.getNextMajor.tag = "v2.0.0") :=
  version_increment_rules v123 rfl

/-! ## Claim C8: timestamp normalization -/

/-- Claim C8, at the repository test fixtures: a numeric timestamp value,
whether a JSON number or a numeric string of epoch seconds, becomes the
instant a thousand times it; but on a calendar date string the
preprocessor returns the raw string, and the date-instance validation then
rejects it, so the calendar path never yields an instant, contradicting
the claim and the repository test that feeds exactly this string. -/
theorem timestamp_calendar_path_rejected :
    timestampField (RawTs.str "1700344381") = Except.ok 1700344381000 ∧
    timestampField (RawTs.num 1700344381) = Except.ok 1700344381000 ∧
    timestampField (RawTs.str "Fri Nov 18 22:18:04 2023 -0300") =
      Except.error "Expected date, received string" :=
  ⟨by decide, by decide, by decide⟩

end DPM
